import Mathlib

/-
Verification of `generate_channel_txn_multithreaded_progress.py`, a
multithreaded bulk data generator.  The development below is a shallow
embedding of the program's core logic:

* the coordinator's range partitioning (`main`, lines 179-187),
* the worker batch loop and its return value (`insert_worker`, lines 103-172),
* the lock-serialized progress aggregation (lines 152-164), and
* the payload generator (`generate_msg`, lines 68-99).

Python machine-independent integers are modelled as `Nat`/`Int`; Python
floats (progress arithmetic, `random.uniform`, `round`) are modelled as
exact rationals; the external collaborators (MySQL client, faker) are
opaque, per the specification's scope.  `math.ceil(TOTAL_RECORDS / THREADS)`
is modelled as exact ceiling division.
-/

namespace DataGen

/-- A work range as assigned by the coordinator: the `worker_id` argument
passed to `insert_worker` together with the half-open index range
`[start_index, end_index)`. -/
structure WorkRange where
  worker_id : Nat
  start_index : Nat
  end_index : Nat
deriving DecidableEq, Repr

/-- `per_thread = math.ceil(TOTAL_RECORDS / THREADS)` (line 179), as exact
ceiling division on `Nat`. -/
def perThread (total threads : Nat) : Nat := (total + threads - 1) / threads

/-- The ranges built by `main` (lines 184-187): for `i in range(THREADS)`,
`start_index = i * per_thread` and
`end_index = min((i + 1) * per_thread, TOTAL_RECORDS)`; the worker id passed
to `insert_worker` on line 187 is `i + 1`. -/
def mkRanges (total threads : Nat) : List WorkRange :=
  (List.range threads).map fun i =>
    { worker_id := i + 1
      start_index := i * perThread total threads
      end_index := min ((i + 1) * perThread total threads) total }

/-- The `while inserted < total` loop of `insert_worker` (lines 131-150):
each iteration builds a batch of `min(BATCH_SIZE, total - inserted)` records
and advances `inserted` by that amount.  We recurse on
`remaining = total - inserted` and return the list of batch lengths, one per
iteration.  `fuel` bounds the number of iterations; since an iteration with
`B ≥ 1` removes at least one record, `fuel = remaining` always suffices
(when `B = 0` the Python loop never makes progress and does not terminate;
exhausted fuel models that truncation). -/
def batchSizesAux (B : Nat) : Nat → Nat → List Nat
  | 0, _ => []
  | fuel + 1, remaining =>
    if 0 < remaining then
      min B remaining :: batchSizesAux B fuel (remaining - min B remaining)
    else []

/-- Batch sizes produced by one worker whose range holds `total` records. -/
def batchSizes (B total : Nat) : List Nat := batchSizesAux B total total

/-- Observable behaviour of `insert_worker` (lines 103-172) on a range:
`total = end_index - start_index` (line 128, Python subtraction, possibly
negative, hence `Int`), the list of batch sizes passed to `cur.executemany`
(one entry per loop iteration, and also one progress line per entry), and
the return value `(worker_id, total)` (line 172). -/
def insert_worker (B : Nat) (worker_id : Nat) (start_index end_index : Int) :
    List Nat × Nat × Int :=
  let total := end_index - start_index
  (batchSizes B total.toNat, worker_id, total)

/-- The final value of `global_inserted` after a serialized history of
`global_inserted += len(batch)` updates (line 154): each lock acquisition
folds one chunk size into the counter. -/
def applyEvents (events : List Nat) : Nat := events.foldl (· + ·) 0

/-- The successive values of `global_inserted` observed at the progress
updates of a serialized history, starting from counter value `acc`. -/
def giTrace (acc : Nat) (chunks : List Nat) : List Nat :=
  match chunks with
  | [] => []
  | c :: cs => (acc + c) :: giTrace (acc + c) cs

/-- A progress snapshot (lines 155-159) over exact rationals. -/
structure Snapshot where
  percent : ℚ
  left : ℚ
  rate : ℚ
  eta : ℚ
deriving DecidableEq, Repr

/-- The snapshot computed under `progress_lock` after `global_inserted` has
been updated: `percent = global_inserted / total_all_threads * 100`,
`left = total_all_threads - global_inserted`,
`rate = global_inserted / elapsed if elapsed > 0 else 0`,
`eta = left / rate if rate > 0 else 0`. -/
def mkSnapshot (global_inserted total_all_threads elapsed : ℚ) : Snapshot :=
  let percent := global_inserted / total_all_threads * 100
  let left := total_all_threads - global_inserted
  let rate := if 0 < elapsed then global_inserted / elapsed else 0
  let eta := if 0 < rate then left / rate else 0
  ⟨percent, left, rate, eta⟩

/-- Division safety of one snapshot computation.  The three divisors used
are `total_all_threads` (line 155, unguarded), `elapsed` (line 158, guarded
by `elapsed > 0`) and `rate` (line 159, guarded by `rate > 0`): each guarded
divisor is nonzero whenever its division runs, so absence of division by
zero amounts to the unguarded divisor being nonzero. -/
def snapshotDivSafe (global_inserted total_all_threads elapsed : ℚ) : Prop :=
  total_all_threads ≠ 0 ∧
  (0 < elapsed → elapsed ≠ 0) ∧
  (0 < (if 0 < elapsed then global_inserted / elapsed else 0) →
    (if 0 < elapsed then global_inserted / elapsed else 0) ≠ 0)

/-- The `percent` fields of the lock-ordered sequence of snapshots of one
run, one per committed chunk. -/
def percentTrace (total_all_threads : ℚ) (chunks : List Nat) : List ℚ :=
  (giTrace 0 chunks).map fun g : Nat => (g : ℚ) / total_all_threads * 100

/-- All chunk-size events of one run: every batch committed by every worker,
each recorded exactly once under the lock. -/
def allChunks (B total threads : Nat) : List Nat :=
  ((mkRanges total threads).map fun r =>
    (insert_worker B r.worker_id (r.start_index : Int) (r.end_index : Int)).1).flatten

/-- `random.randint(a, b)`: an integer in `[a, b]`, both endpoints included.
The underlying entropy is an arbitrary natural `d` reduced into the range. -/
def randint (a b d : Nat) : Nat := a + d % (b - a + 1)

/-- `random.uniform(a, b) = a + (b - a) * random()` with the draw
`r = random()` in `[0, 1)`, floats modelled as rationals. -/
def uniform (a b r : ℚ) : ℚ := a + (b - a) * r

/-- Python's `round` to an integer: round half to even (banker's rounding),
on exact rationals. -/
def roundHalfEven (q : ℚ) : ℤ :=
  if q - ⌊q⌋ < 1 / 2 then ⌊q⌋
  else if 1 / 2 < q - ⌊q⌋ then ⌊q⌋ + 1
  else if Even ⌊q⌋ then ⌊q⌋ else ⌊q⌋ + 1

/-- `round(x, 2)` (line 75): round to 2 decimal places, half to even. -/
def round2 (q : ℚ) : ℚ := (roundHalfEven (q * 100) : ℚ) / 100

/-- The random draws consumed by one `generate_msg` call, plus the
faker-produced strings (the faker is an external collaborator, so its
outputs are opaque string inputs here).  Each `...Draw : Nat` is the raw
entropy fed to the corresponding `random.randint` call; `amountDraw` is the
`random()` value behind `random.uniform` on line 75. -/
structure MsgDraws where
  firstName : String
  lastName : String
  city : String
  stateCode : String
  streetAddress : String
  zipCode : String
  idIssuerState : String
  phoneDraw : Nat
  idNumberDraw : Nat
  dobDraw : Nat
  amountDraw : ℚ
  idTypeDraw : Nat
  ctrIdDraw : Nat
  employeeIdDraw : Nat

/-- The JSON object built by `generate_msg` (lines 76-98).  `json.dumps` is
injective serialization of this dict, so the serialized blob is modelled as
the structured value itself. -/
structure Msg where
  entity : Bool
  entityIndividualLastName : String
  individualFirstName : String
  city : String
  countryCode : String
  stateCode : String
  streetAddress : String
  zipCode : String
  phoneNumber : String
  tinIssuerCountry : String
  idType : Nat
  idIssuerCountry : String
  idIssuerState : String
  idNumber : String
  dob : Nat
  uid : String
  location : String
  ts : Nat
  ctrId : Nat
  amount : ℚ
  employeeId : String

/-- `generate_msg(uid, loc, ts)` (lines 68-99): `phone`, `id_number`, `dob`
and `amount` are drawn on lines 72-75, the remaining random fields inline in
the dict literal; `str(...)` is `Nat.repr`. -/
def generate_msg (uid loc : String) (ts : Nat) (d : MsgDraws) : Msg :=
  let phone := randint 6000000000 9999999999 d.phoneDraw
  let id_number := randint 10000000 99999999 d.idNumberDraw
  let dob := randint 19600101 20051231 d.dobDraw
  let amount := round2 (uniform 1000 99999.99 d.amountDraw)
  { entity := false
    entityIndividualLastName := d.lastName
    individualFirstName := d.firstName
    city := d.city
    countryCode := "US"
    stateCode := d.stateCode
    streetAddress := d.streetAddress
    zipCode := d.zipCode
    phoneNumber := Nat.repr phone
    tinIssuerCountry := "US"
    idType := randint 1 9 d.idTypeDraw
    idIssuerCountry := "US"
    idIssuerState := d.idIssuerState
    idNumber := Nat.repr id_number
    dob := dob
    uid := uid
    location := loc
    ts := ts
    ctrId := randint 10 99 d.ctrIdDraw
    amount := amount
    employeeId := Nat.repr (randint 40000 49999 d.employeeIdDraw) }

/-! ### Coordinator partition -/

lemma le_threads_mul_perThread (total threads : Nat) (h : 1 ≤ threads) :
    total ≤ threads * perThread total threads := by
  unfold perThread
  have h1 := Nat.div_add_mod (total + threads - 1) threads
  have h2 : (total + threads - 1) % threads < threads := Nat.mod_lt _ h
  omega

lemma range_sizes_sum (p total N : Nat) :
    ((List.range N).map fun i => min ((i + 1) * p) total - i * p).sum = min (N * p) total := by
  induction N with
  | zero => simp
  | succ n ih =>
    rw [List.range_succ, List.map_append, List.sum_append, ih]
    have h1 : (n + 1) * p = n * p + p := by ring
    simp only [List.map_cons, List.map_nil, List.sum_cons, List.sum_nil]
    rw [h1]
    omega

lemma mkRanges_sizes_sum (total threads : Nat) (h : 1 ≤ threads) :
    ((mkRanges total threads).map fun r => r.end_index - r.start_index).sum = total := by
  unfold mkRanges
  rw [List.map_map]
  have h2 : ((fun r : WorkRange => r.end_index - r.start_index) ∘ fun i =>
      WorkRange.mk (i + 1) (i * perThread total threads)
        (min ((i + 1) * perThread total threads) total)) =
      fun i => min ((i + 1) * perThread total threads) total - i * perThread total threads := rfl
  rw [h2, range_sizes_sum]
  have h3 := le_threads_mul_perThread total threads h
  omega

lemma mkRanges_getElem (total threads i : Nat) (hi : i < threads) :
    (mkRanges total threads)[i]? =
      some ⟨i + 1, i * perThread total threads,
        min ((i + 1) * perThread total threads) total⟩ := by
  simp [mkRanges, hi]

lemma mem_mkRanges (total threads : Nat) {r : WorkRange} (hr : r ∈ mkRanges total threads) :
    ∃ i, i < threads ∧ r = ⟨i + 1, i * perThread total threads,
      min ((i + 1) * perThread total threads) total⟩ := by
  unfold mkRanges at hr
  rw [List.mem_map] at hr
  obtain ⟨i, hi, rfl⟩ := hr
  exact ⟨i, List.mem_range.mp hi, rfl⟩

lemma mkRanges_covers (total threads k : Nat) (hth : 1 ≤ threads) (hk : k < total) :
    ∃! r, r ∈ mkRanges total threads ∧ r.start_index ≤ k ∧ k < r.end_index := by
  have hTle : total ≤ threads * perThread total threads :=
    le_threads_mul_perThread total threads hth
  set p := perThread total threads with hp
  have hp1 : 0 < p := by
    rcases Nat.eq_zero_or_pos p with h0 | h1
    · rw [h0, Nat.mul_zero] at hTle; omega
    · exact h1
  have hmod := Nat.div_add_mod k p
  have hmodlt : k % p < p := Nat.mod_lt _ hp1
  have e2 : p * (k / p) = k / p * p := by ring
  rw [e2] at hmod
  have h1 : k / p * p ≤ k := by omega
  have h2 : k < (k / p + 1) * p := by
    have e1 : (k / p + 1) * p = k / p * p + p := by ring
    omega
  have hiN : k / p < threads := by
    by_contra hge
    push_neg at hge
    have h3 : threads * p ≤ k / p * p := by
      calc threads * p = p * threads := by ring
        _ ≤ p * (k / p) := Nat.mul_le_mul_left p hge
        _ = k / p * p := by ring
    omega
  refine ⟨⟨k / p + 1, k / p * p, min ((k / p + 1) * p) total⟩,
    ⟨?_, h1, Nat.lt_min.mpr ⟨h2, hk⟩⟩, ?_⟩
  · unfold mkRanges
    exact List.mem_map.mpr ⟨k / p, List.mem_range.mpr hiN, rfl⟩
  · rintro r' ⟨hmem, hs, he⟩
    obtain ⟨j, hj, rfl⟩ := mem_mkRanges total threads hmem
    have hj1 : j * p ≤ k := hs
    have hj2 : k < (j + 1) * p := lt_of_lt_of_le he (min_le_left _ _)
    have hja : j ≤ k / p := (Nat.le_div_iff_mul_le hp1).mpr hj1
    have hjb : k / p < j + 1 := (Nat.div_lt_iff_lt_mul hp1).mpr hj2
    have : j = k / p := by omega
    subst this
    rfl

lemma mkRanges_pairwise (total threads : Nat) :
    List.Pairwise (fun a b => a.worker_id < b.worker_id ∧ a.end_index ≤ b.start_index)
      (mkRanges total threads) := by
  unfold mkRanges
  rw [List.pairwise_map]
  refine List.Pairwise.imp ?_ (List.pairwise_lt_range threads)
  intro i j hij
  dsimp only
  refine ⟨by omega, ?_⟩
  calc min ((i + 1) * perThread total threads) total
      ≤ (i + 1) * perThread total threads := min_le_left _ _
    _ ≤ j * perThread total threads := Nat.mul_le_mul_right _ hij

lemma chain'_of_range (r : ℕ → ℕ → Prop) (n : ℕ) (h : ∀ m, m + 1 < n → r m (m + 1)) :
    List.Chain' r (List.range n) := by
  cases n with
  | zero => simp
  | succ k =>
    rw [List.chain'_range_succ]
    intro m hm
    exact h m (by omega)

lemma mkRanges_chain (total threads : Nat) :
    List.Chain' (fun a b => min b.start_index total = a.end_index)
      (mkRanges total threads) := by
  unfold mkRanges
  rw [List.chain'_map]
  exact chain'_of_range _ threads fun m _ => rfl

lemma mkRanges_end_le (total threads : Nat) {r : WorkRange}
    (hr : r ∈ mkRanges total threads) : r.end_index ≤ total := by
  obtain ⟨i, hi, rfl⟩ := mem_mkRanges total threads hr
  exact min_le_right _ _

/-- C1 (amended): for every `TOTAL_RECORDS` and every `THREADS ≥ 1`, the
ranges computed by the coordinator cover `[0, TOTAL_RECORDS)` exactly: their
sizes clamped at zero (`end_index - start_index` in `Nat`, i.e.
`max 0 (end_index - start_index)`) sum to `TOTAL_RECORDS`; they are pairwise
disjoint and ordered by worker id; each adjacent pair is contiguous after
clamping the next start to `TOTAL_RECORDS`
(`min start_index TOTAL_RECORDS = previous end_index`); every index below
`TOTAL_RECORDS` lies in exactly one range; and no range reaches past
`TOTAL_RECORDS`.  (The raw signed sizes and raw contiguity of the original
claim fail when a trailing range is empty with `start_index > end_index`,
see the counterexample.) -/
theorem C1_partition_amended (total threads : Nat) (h : 1 ≤ threads) :
    ((mkRanges total threads).map fun r => r.end_index - r.start_index).sum = total ∧
    List.Pairwise (fun a b => a.worker_id < b.worker_id ∧ a.end_index ≤ b.start_index)
      (mkRanges total threads) ∧
    List.Chain' (fun a b => min b.start_index total = a.end_index) (mkRanges total threads) ∧
    (∀ k, k < total → ∃! r, r ∈ mkRanges total threads ∧
      r.start_index ≤ k ∧ k < r.end_index) ∧
    (∀ r ∈ mkRanges total threads, r.end_index ≤ total) :=
  ⟨mkRanges_sizes_sum total threads h, mkRanges_pairwise total threads,
    mkRanges_chain total threads, fun k hk => mkRanges_covers total threads k h hk,
    fun _ hr => mkRanges_end_le total threads hr⟩

/-- C1 witness: the amended partition claim instantiated at
`TOTAL_RECORDS = 17`, `THREADS = 4` (the spec's own worked example). -/
theorem C1_partition_amended_witness :
    ((mkRanges 17 4).map fun r => r.end_index - r.start_index).sum = 17 ∧
    List.Pairwise (fun a b => a.worker_id < b.worker_id ∧ a.end_index ≤ b.start_index)
      (mkRanges 17 4) ∧
    List.Chain' (fun a b => min b.start_index 17 = a.end_index) (mkRanges 17 4) ∧
    (∀ k, k < 17 → ∃! r, r ∈ mkRanges 17 4 ∧ r.start_index ≤ k ∧ k < r.end_index) ∧
    (∀ r ∈ mkRanges 17 4, r.end_index ≤ 17) :=
  C1_partition_amended 17 4 (by decide)

/-- C1 counterexample: at `TOTAL_RECORDS = 1`, `THREADS = 3` the computed
ranges are `[0,1) [1,1) [2,1)`, so the signed sizes `end_index - start_index`
sum to `1 + 0 + (-1) = 0 ≠ 1` and the third range does not start where the
second ends: the partition claim as stated is false. -/
theorem C1_counterexample :
    ¬ ((((mkRanges 1 3).map fun r => (r.end_index : Int) - (r.start_index : Int)).sum = 1) ∧
      List.Chain' (fun a b => b.start_index = a.end_index) (mkRanges 1 3)) := by
  decide

/-- C2 (amended): the coordinator computes `per_thread` by ceiling division
and launches worker `i` (for `i` in `[0, thread_count)`) with
`WorkRange(i + 1, i * per_thread, min((i + 1) * per_thread, total_records))`;
the worker ids passed to the workers are exactly `1, 2, ..., thread_count`,
not `0, ..., thread_count - 1`. -/
theorem C2_coordinator_amended (total threads i : Nat) (hi : i < threads) :
    (mkRanges total threads)[i]? =
      some ⟨i + 1, i * perThread total threads,
        min ((i + 1) * perThread total threads) total⟩ ∧
    (mkRanges total threads).map WorkRange.worker_id =
      (List.range threads).map (· + 1) := by
  refine ⟨mkRanges_getElem total threads i hi, ?_⟩
  unfold mkRanges
  rw [List.map_map]
  rfl

/-- C2 witness: the amended coordinator claim at
`total_records = 10`, `thread_count = 2`, `i = 0`. -/
theorem C2_coordinator_amended_witness :
    (mkRanges 10 2)[0]? =
      some ⟨0 + 1, 0 * perThread 10 2, min ((0 + 1) * perThread 10 2) 10⟩ ∧
    (mkRanges 10 2).map WorkRange.worker_id = (List.range 2).map (· + 1) :=
  C2_coordinator_amended 10 2 0 (by decide)

/-- C2 counterexample: at `total_records = 10`, `thread_count = 2` the ids
passed to the workers (line 187 passes `i + 1`) are `[1, 2]`, not `[0, 1]`:
the claim that worker ids are exactly `0, ..., thread_count - 1` is false. -/
theorem C2_counterexample :
    (mkRanges 10 2).map WorkRange.worker_id = [1, 2] ∧
      ¬ (mkRanges 10 2).map WorkRange.worker_id = [0, 1] := by
  decide

/-! ### Worker batch loop -/

lemma batchSizesAux_zero (B : Nat) : ∀ fuel, batchSizesAux B fuel 0 = [] := by
  intro fuel
  cases fuel <;> simp [batchSizesAux]

lemma batchSizesAux_mem (B : Nat) (hB : 1 ≤ B) :
    ∀ fuel remaining, ∀ s ∈ batchSizesAux B fuel remaining, 1 ≤ s ∧ s ≤ B := by
  intro fuel
  induction fuel with
  | zero => intro r s hs; simp [batchSizesAux] at hs
  | succ n ih =>
    intro r s hs
    by_cases h : 0 < r
    · simp only [batchSizesAux, if_pos h, List.mem_cons] at hs
      rcases hs with rfl | hs
      · omega
      · exact ih _ s hs
    · simp [batchSizesAux, h] at hs

lemma batchSizesAux_sum (B : Nat) (hB : 1 ≤ B) :
    ∀ fuel remaining, remaining ≤ fuel → (batchSizesAux B fuel remaining).sum = remaining := by
  intro fuel
  induction fuel with
  | zero => intro r hr; simp [batchSizesAux]; omega
  | succ n ih =>
    intro r hr
    by_cases h : 0 < r
    · simp only [batchSizesAux, if_pos h, List.sum_cons]
      rw [ih (r - min B r) (by omega)]
      omega
    · simp [batchSizesAux, h]; omega

lemma batchSizesAux_length (B : Nat) (hB : 1 ≤ B) :
    ∀ fuel remaining, (batchSizesAux B fuel remaining).length ≤ remaining := by
  intro fuel
  induction fuel with
  | zero => intro r; simp [batchSizesAux]
  | succ n ih =>
    intro r
    by_cases h : 0 < r
    · simp only [batchSizesAux, if_pos h, List.length_cons]
      have h1 := ih (r - min B r)
      omega
    · simp [batchSizesAux, h]

lemma batchSizesAux_fuel (B : Nat) (hB : 1 ≤ B) :
    ∀ fuel fuel' remaining, remaining ≤ fuel → remaining ≤ fuel' →
      batchSizesAux B fuel remaining = batchSizesAux B fuel' remaining := by
  intro fuel
  induction fuel with
  | zero =>
    intro fuel' r hr _
    have : r = 0 := by omega
    subst this
    rw [batchSizesAux_zero, batchSizesAux_zero]
  | succ n ih =>
    intro fuel' r hr hr'
    by_cases h : 0 < r
    · cases fuel' with
      | zero => omega
      | succ m =>
        simp only [batchSizesAux, if_pos h]
        rw [ih m (r - min B r) (by omega) (by omega)]
    · have : r = 0 := by omega
      subst this
      rw [batchSizesAux_zero, batchSizesAux_zero]

lemma batchSizes_unfold (B total : Nat) (hB : 1 ≤ B) :
    batchSizes B total =
      (if 0 < total then min B total :: batchSizes B (total - min B total) else []) := by
  unfold batchSizes
  by_cases h : 0 < total
  · cases total with
    | zero => omega
    | succ t =>
      simp only [batchSizesAux, if_pos h, if_pos (show 0 < t + 1 by omega)]
      rw [batchSizesAux_fuel B hB t (t + 1 - min B (t + 1)) (t + 1 - min B (t + 1))
        (by omega) le_rfl]
  · have : total = 0 := by omega
    subst this
    simp [batchSizesAux]

/-- C3: for every worker range and `BATCH_SIZE ≥ 1`, every batch handed to
`cur.executemany` is non-empty and no larger than `BATCH_SIZE`, and the batch
built at each iteration has size exactly `min(BATCH_SIZE, remaining)` where
`remaining` counts the records still to insert. -/
theorem C3_batch_size_bounds (B total : Nat) (hB : 1 ≤ B) :
    (∀ s ∈ batchSizes B total, 1 ≤ s ∧ s ≤ B) ∧
    batchSizes B total =
      (if 0 < total then min B total :: batchSizes B (total - min B total) else []) :=
  ⟨fun s hs => batchSizesAux_mem B hB total total s hs, batchSizes_unfold B total hB⟩

/-- C3 witness: at `BATCH_SIZE = 3` over 7 records the worker builds batches
`[3, 3, 1]`, all of size between 1 and 3, peeling `min 3 remaining` each
iteration. -/
theorem C3_batch_size_bounds_witness :
    (∀ s ∈ batchSizes 3 7, 1 ≤ s ∧ s ≤ 3) ∧
    batchSizes 3 7 = (if 0 < 7 then min 3 7 :: batchSizes 3 (7 - min 3 7) else []) :=
  C3_batch_size_bounds 3 7 (by decide)

/-- C4: with `BATCH_SIZE ≥ 1` and a range holding `end_index - start_index ≥ 0`
records, the worker loop runs at most that many iterations (each moving at
least one record), inserts the whole range (the batch sizes sum to it), and
returns `(worker_id, end_index - start_index)`. -/
theorem C4_worker_terminates (B w : Nat) (s e : Int) (hB : 1 ≤ B) (hse : s ≤ e) :
    (insert_worker B w s e).2 = (w, e - s) ∧
    (((insert_worker B w s e).1).sum : Int) = e - s ∧
    ((insert_worker B w s e).1).length ≤ (e - s).toNat ∧
    (∀ sz ∈ (insert_worker B w s e).1, 1 ≤ sz) := by
  refine ⟨rfl, ?_, ?_, ?_⟩
  · show ((batchSizes B (e - s).toNat).sum : Int) = e - s
    unfold batchSizes
    rw [batchSizesAux_sum B hB _ _ le_rfl]
    omega
  · exact batchSizesAux_length B hB _ _
  · intro sz hsz
    exact (batchSizesAux_mem B hB _ _ sz hsz).1

/-- C4 witness: worker 1 on range `[0, 5)` with `BATCH_SIZE = 2` returns
`(1, 5)` after batches summing to 5 over at most 5 iterations. -/
theorem C4_worker_terminates_witness :
    (insert_worker 2 1 0 5).2 = (1, 5 - 0) ∧
    (((insert_worker 2 1 0 5).1).sum : Int) = 5 - 0 ∧
    ((insert_worker 2 1 0 5).1).length ≤ ((5 : Int) - 0).toNat ∧
    (∀ sz ∈ (insert_worker 2 1 0 5).1, 1 ≤ sz) :=
  C4_worker_terminates 2 1 0 5 (by decide) (by decide)

/-- C10: a worker given a degenerate range (`start_index ≥ end_index`) never
runs its loop body: it passes no batch to the database, publishes no progress
line, and returns `(worker_id, end_index - start_index)` with a zero or
negative count; and the coordinator produces such a range for slot `i`
whenever `TOTAL_RECORDS ≤ i * per_thread`. -/
theorem C10_degenerate_range (B w : Nat) (s e : Int) (total threads i : Nat)
    (hse : e ≤ s) (hi : i < threads) (hT : total ≤ i * perThread total threads) :
    (insert_worker B w s e).1 = [] ∧
    (insert_worker B w s e).2 = (w, e - s) ∧
    e - s ≤ 0 ∧
    (∀ r, (mkRanges total threads)[i]? = some r → r.end_index ≤ r.start_index) := by
  have ht : (e - s).toNat = 0 := by omega
  refine ⟨?_, rfl, by omega, ?_⟩
  · show batchSizes B (e - s).toNat = []
    rw [ht]
    rfl
  · intro r hr
    rw [mkRanges_getElem total threads i hi] at hr
    injection hr with hr
    subst hr
    exact le_trans (min_le_right _ _) hT

/-- C10 witness: at `TOTAL_RECORDS = 1`, `THREADS = 3`, slot `i = 2` gets the
degenerate range `[2, 1)`; a worker on it inserts nothing and returns a
negative count. -/
theorem C10_degenerate_range_witness :
    (insert_worker 2 3 2 1).1 = [] ∧
    (insert_worker 2 3 2 1).2 = (3, 1 - 2) ∧
    (1 : Int) - 2 ≤ 0 ∧
    (∀ r, (mkRanges 1 3)[2]? = some r → r.end_index ≤ r.start_index) :=
  C10_degenerate_range 2 3 2 1 1 3 2 (by decide) (by decide) (by decide)

/-! ### Progress aggregation -/

lemma applyEvents_foldl (l : List Nat) : ∀ a, l.foldl (· + ·) a = a + l.sum := by
  induction l with
  | nil => intro a; simp
  | cons c cs ih =>
    intro a
    simp only [List.foldl_cons, List.sum_cons, ih]
    omega

lemma applyEvents_eq_sum (l : List Nat) : applyEvents l = l.sum := by
  unfold applyEvents
  rw [applyEvents_foldl]
  omega

lemma allChunks_sum (B total threads : Nat) (hB : 1 ≤ B) (hth : 1 ≤ threads) :
    (allChunks B total threads).sum = total := by
  unfold allChunks insert_worker
  rw [List.sum_flatten, List.map_map]
  have h1 : ∀ r ∈ mkRanges total threads,
      (List.sum ∘ fun r : WorkRange =>
        (batchSizes B ((r.end_index : Int) - (r.start_index : Int)).toNat,
          r.worker_id, (r.end_index : Int) - (r.start_index : Int)).1) r =
      (fun r : WorkRange => r.end_index - r.start_index) r := by
    intro r _
    show (batchSizes B ((r.end_index : Int) - (r.start_index : Int)).toNat).sum =
      r.end_index - r.start_index
    have h2 : ((r.end_index : Int) - (r.start_index : Int)).toNat =
        r.end_index - r.start_index := by omega
    rw [h2]
    exact batchSizesAux_sum B hB _ _ le_rfl
  rw [List.map_congr_left h1]
  exact mkRanges_sizes_sum total threads hth

/-- C5: the lock-serialized progress recording loses no update.  A run's
events are the chunk sizes of every batch committed by every worker; each
lock acquisition adds one of them to `global_inserted`.  For every serialized
order of those events (any interleaving of the workers' `recordBatch` calls),
the final counter equals their total sum, which is exactly `TOTAL_RECORDS`. -/
theorem C5_no_lost_update (B total threads : Nat) (hB : 1 ≤ B) (hth : 1 ≤ threads)
    (schedule : List Nat) (hs : schedule.Perm (allChunks B total threads)) :
    applyEvents schedule = total := by
  rw [applyEvents_eq_sum, hs.sum_eq]
  exact allChunks_sum B total threads hB hth

/-- C5 witness: with `TOTAL_RECORDS = 5`, `THREADS = 2`, `BATCH_SIZE = 2` the
committed chunks are `[2, 1, 2]`; the interleaving `[1, 2, 2]` still drives
the counter to exactly 5. -/
theorem C5_no_lost_update_witness : applyEvents [1, 2, 2] = 5 :=
  C5_no_lost_update 2 5 2 (by decide) (by decide) [1, 2, 2] (by decide)

/-! ### Progress snapshots -/

/-- C6 counterexample: the claim's precondition
`global_inserted ≤ total_all_threads` is satisfied by
`global_inserted = total_all_threads = 0`, yet there `percent` on line 155
divides `global_inserted` by zero — the unguarded divisor
`total_all_threads` is zero, so the claim that no division by zero can occur
under that precondition alone is false. -/
theorem C6_counterexample : (0 : ℚ) ≤ (0 : ℚ) ∧ ¬ snapshotDivSafe 0 0 1 := by
  refine ⟨le_refl 0, ?_⟩
  unfold snapshotDivSafe
  simp

/-- C6 (amended): under the precondition
`1 ≤ global_inserted ≤ total_all_threads` — which holds at every snapshot
the program actually takes, since a snapshot follows the addition of a chunk
of size at least 1 — every division of the snapshot computation has a
nonzero divisor, and `percent`, `remaining`, `rate` and `eta` are all
non-negative. -/
theorem C6_snapshot_amended (gi total elapsed : ℚ) (h1 : 1 ≤ gi) (h2 : gi ≤ total) :
    snapshotDivSafe gi total elapsed ∧
    0 ≤ (mkSnapshot gi total elapsed).percent ∧
    0 ≤ (mkSnapshot gi total elapsed).left ∧
    0 ≤ (mkSnapshot gi total elapsed).rate ∧
    0 ≤ (mkSnapshot gi total elapsed).eta := by
  have htot : 0 < total := by linarith
  have hgi : 0 ≤ gi := by linarith
  have hrate : 0 ≤ (if 0 < elapsed then gi / elapsed else 0) := by
    split_ifs with h
    · exact div_nonneg hgi (le_of_lt h)
    · exact le_refl 0
  refine ⟨⟨ne_of_gt htot, fun h => ne_of_gt h, fun h => ne_of_gt h⟩, ?_, ?_, hrate, ?_⟩
  · show 0 ≤ gi / total * 100
    exact mul_nonneg (div_nonneg hgi (le_of_lt htot)) (by norm_num)
  · show 0 ≤ total - gi
    linarith
  · show 0 ≤ (if 0 < (if 0 < elapsed then gi / elapsed else 0) then
      (total - gi) / (if 0 < elapsed then gi / elapsed else 0) else 0)
    by_cases hrp : 0 < (if 0 < elapsed then gi / elapsed else 0)
    · rw [if_pos hrp]
      exact div_nonneg (by linarith) (le_of_lt hrp)
    · rw [if_neg hrp]

/-- C6 witness: the amended snapshot claim at
`global_inserted = 1`, `total_all_threads = 2`, `elapsed = 1`. -/
theorem C6_snapshot_amended_witness :
    snapshotDivSafe 1 2 1 ∧
    0 ≤ (mkSnapshot 1 2 1).percent ∧
    0 ≤ (mkSnapshot 1 2 1).left ∧
    0 ≤ (mkSnapshot 1 2 1).rate ∧
    0 ≤ (mkSnapshot 1 2 1).eta :=
  C6_snapshot_amended 1 2 1 (by norm_num) (by norm_num)

lemma giTrace_ge (acc : Nat) (chunks : List Nat) : ∀ g ∈ giTrace acc chunks, acc ≤ g := by
  induction chunks generalizing acc with
  | nil => simp [giTrace]
  | cons c cs ih =>
    intro g hg
    simp only [giTrace, List.mem_cons] at hg
    rcases hg with rfl | hg
    · omega
    · have := ih (acc + c) g hg
      omega

lemma giTrace_pairwise (acc : Nat) (chunks : List Nat) :
    List.Pairwise (· ≤ ·) (giTrace acc chunks) := by
  induction chunks generalizing acc with
  | nil => exact List.Pairwise.nil
  | cons c cs ih =>
    exact List.pairwise_cons.mpr ⟨fun g hg => giTrace_ge (acc + c) cs g hg, ih (acc + c)⟩

/-- C7: across the lock-serialized sequence of snapshots of one run — one
snapshot per committed chunk, each chunk of positive size — the published
`percent` values are monotonically non-decreasing, because the underlying
`global_inserted` values form a non-decreasing trace and `percent` divides
them by the fixed positive total. -/
theorem C7_percent_monotone (total_all_threads : ℚ) (chunks : List Nat)
    (htotal : 0 < total_all_threads) (hchunks : ∀ c ∈ chunks, 1 ≤ c) :
    List.Pairwise (· ≤ ·) (percentTrace total_all_threads chunks) := by
  unfold percentTrace
  refine List.Pairwise.map (fun g : ℕ => (g : ℚ) / total_all_threads * 100) ?_
    (giTrace_pairwise 0 chunks)
  intro a b hab
  dsimp only
  have h1 : (a : ℚ) ≤ b := by exact_mod_cast hab
  have h2 : (a : ℚ) / total_all_threads ≤ (b : ℚ) / total_all_threads :=
    (div_le_div_iff_of_pos_right htotal).mpr h1
  exact mul_le_mul_of_nonneg_right h2 (by norm_num)

/-- C7 witness: for a run with `total_all_threads = 10` and serialized chunks
`[1, 2]`, the percent trace `[10, 30]` is non-decreasing. -/
theorem C7_percent_monotone_witness :
    List.Pairwise (· ≤ ·) (percentTrace 10 [1, 2]) :=
  C7_percent_monotone 10 [1, 2] (by norm_num) (by decide)

/-! ### Payload generator -/

lemma randint_mem (a b d : Nat) (h : a ≤ b) : a ≤ randint a b d ∧ randint a b d ≤ b := by
  unfold randint
  have h2 : d % (b - a + 1) < b - a + 1 := Nat.mod_lt _ (by omega)
  omega

lemma digits_length_eq (p k : Nat) (h1 : 10 ^ k ≤ p) (h2 : p < 10 ^ (k + 1)) :
    (Nat.digits 10 p).length = k + 1 := by
  have hpow : 0 < 10 ^ k := Nat.pos_pow_of_pos k (by norm_num)
  rw [Nat.digits_len 10 p (by norm_num) (by omega),
    Nat.log_eq_of_pow_le_of_lt_pow h1 h2]

lemma floor_le_roundHalfEven (q : ℚ) : ⌊q⌋ ≤ roundHalfEven q := by
  unfold roundHalfEven
  split_ifs <;> omega

lemma le_roundHalfEven {q : ℚ} {n : ℤ} (h : (n : ℚ) ≤ q) : n ≤ roundHalfEven q :=
  le_trans (Int.le_floor.mpr h) (floor_le_roundHalfEven q)

lemma roundHalfEven_le {q : ℚ} {n : ℤ} (h : q ≤ (n : ℚ)) : roundHalfEven q ≤ n := by
  have hfl : ⌊q⌋ ≤ n := by
    have := Int.floor_mono h
    rwa [Int.floor_intCast] at this
  have hq : (⌊q⌋ : ℚ) ≤ q := Int.floor_le q
  unfold roundHalfEven
  split_ifs with hlt hgt heven
  · exact hfl
  · have hlt2 : (⌊q⌋ : ℚ) < n := by linarith
    have hn : ⌊q⌋ < n := by exact_mod_cast hlt2
    omega
  · exact hfl
  · push_neg at hlt hgt
    have hfrac : q - ⌊q⌋ = 1 / 2 := le_antisymm hgt hlt
    have hlt2 : (⌊q⌋ : ℚ) < n := by linarith
    have hn : ⌊q⌋ < n := by exact_mod_cast hlt2
    omega

lemma round2_mem {q : ℚ} (h1 : 1000 ≤ q) (h2 : q ≤ 99999.99) :
    1000 ≤ round2 q ∧ round2 q ≤ 99999.99 ∧ (100 * round2 q).den = 1 := by
  have e : (99999.99 : ℚ) = 9999999 / 100 := by norm_num
  unfold round2
  have ha : ((100000 : ℤ) : ℚ) ≤ q * 100 := by push_cast; linarith
  have hb : q * 100 ≤ ((9999999 : ℤ) : ℚ) := by push_cast; rw [e] at h2; linarith
  have hz1 : (100000 : ℤ) ≤ roundHalfEven (q * 100) := le_roundHalfEven ha
  have hz2 : roundHalfEven (q * 100) ≤ 9999999 := roundHalfEven_le hb
  have hz1q : (100000 : ℚ) ≤ (roundHalfEven (q * 100) : ℚ) := by exact_mod_cast hz1
  have hz2q : ((roundHalfEven (q * 100) : ℤ) : ℚ) ≤ 9999999 := by exact_mod_cast hz2
  refine ⟨by linarith, ?_, ?_⟩
  · rw [e]
    linarith
  · have hmul : (100 : ℚ) * ((roundHalfEven (q * 100) : ℚ) / 100) =
        ((roundHalfEven (q * 100) : ℤ) : ℚ) := by
      field_simp
    rw [hmul, Rat.den_intCast]

/-- C8: every `amount` produced by `generate_msg` — the 2-decimal rounding of
`random.uniform(1000.0, 99999.99)`, with the `random()` draw in `[0, 1]` —
lies in `[1000.00, 99999.99]` and is an integer multiple of `0.01` (exactly
2 decimal digits). -/
theorem C8_amount_range (uid loc : String) (ts : Nat) (d : MsgDraws)
    (h0 : 0 ≤ d.amountDraw) (h1 : d.amountDraw ≤ 1) :
    1000 ≤ (generate_msg uid loc ts d).amount ∧
    (generate_msg uid loc ts d).amount ≤ 99999.99 ∧
    (100 * (generate_msg uid loc ts d).amount).den = 1 := by
  have hu1 : 1000 ≤ uniform 1000 99999.99 d.amountDraw := by
    unfold uniform
    nlinarith [mul_nonneg (show (0 : ℚ) ≤ 99999.99 - 1000 by norm_num) h0]
  have hu2 : uniform 1000 99999.99 d.amountDraw ≤ 99999.99 := by
    unfold uniform
    nlinarith [mul_le_of_le_one_right (show (0 : ℚ) ≤ 99999.99 - 1000 by norm_num) h1]
  exact round2_mem hu1 hu2

/-- C8 witness: with `random() = 1/2` the generated amount is
`round2(50499.995) = 50500.00`, inside `[1000, 99999.99]` with at most two
decimal digits. -/
theorem C8_amount_range_witness :
    1000 ≤ (generate_msg "u" "l" 5 ⟨"a", "b", "c", "d", "e", "f", "g",
      0, 0, 0, 1 / 2, 0, 0, 0⟩).amount ∧
    (generate_msg "u" "l" 5 ⟨"a", "b", "c", "d", "e", "f", "g",
      0, 0, 0, 1 / 2, 0, 0, 0⟩).amount ≤ 99999.99 ∧
    (100 * (generate_msg "u" "l" 5 ⟨"a", "b", "c", "d", "e", "f", "g",
      0, 0, 0, 1 / 2, 0, 0, 0⟩).amount).den = 1 :=
  C8_amount_range "u" "l" 5 _ (by norm_num) (by norm_num)

/-- C9: every object returned by `generate_msg` has the constant `entity`
flag `false` and country code `"US"`; carries `uid`, `location` and `ts`
verbatim from its inputs; its phone number is the decimal string of an
integer in `[6000000000, 9999999999]` — exactly 10 digits with leading digit
in `[6, 9]`; its government id is the decimal string of an integer in
`[10000000, 99999999]` — exactly 8 digits; `dob` is an 8-digit integer in
`[19600101, 20051231]`; `ctrId` is in `[10, 99]`; and the employee id is the
decimal string of an integer in `[40000, 49999]`. -/
theorem C9_payload_fields (uid loc : String) (ts : Nat) (d : MsgDraws) :
    (generate_msg uid loc ts d).entity = false ∧
    (generate_msg uid loc ts d).countryCode = "US" ∧
    (generate_msg uid loc ts d).uid = uid ∧
    (generate_msg uid loc ts d).location = loc ∧
    (generate_msg uid loc ts d).ts = ts ∧
    (generate_msg uid loc ts d).phoneNumber =
      Nat.repr (randint 6000000000 9999999999 d.phoneDraw) ∧
    (Nat.digits 10 (randint 6000000000 9999999999 d.phoneDraw)).length = 10 ∧
    6 ≤ randint 6000000000 9999999999 d.phoneDraw / 10 ^ 9 ∧
    randint 6000000000 9999999999 d.phoneDraw / 10 ^ 9 ≤ 9 ∧
    (generate_msg uid loc ts d).idNumber =
      Nat.repr (randint 10000000 99999999 d.idNumberDraw) ∧
    (Nat.digits 10 (randint 10000000 99999999 d.idNumberDraw)).length = 8 ∧
    (Nat.digits 10 (generate_msg uid loc ts d).dob).length = 8 ∧
    19600101 ≤ (generate_msg uid loc ts d).dob ∧
    (generate_msg uid loc ts d).dob ≤ 20051231 ∧
    10 ≤ (generate_msg uid loc ts d).ctrId ∧
    (generate_msg uid loc ts d).ctrId ≤ 99 ∧
    (generate_msg uid loc ts d).employeeId =
      Nat.repr (randint 40000 49999 d.employeeIdDraw) ∧
    40000 ≤ randint 40000 49999 d.employeeIdDraw ∧
    randint 40000 49999 d.employeeIdDraw ≤ 49999 := by
  have e9 : (10 : Nat) ^ 9 = 1000000000 := by norm_num
  have e7 : (10 : Nat) ^ 7 = 10000000 := by norm_num
  have hph := randint_mem 6000000000 9999999999 d.phoneDraw (by norm_num)
  have hid := randint_mem 10000000 99999999 d.idNumberDraw (by norm_num)
  have hdob := randint_mem 19600101 20051231 d.dobDraw (by norm_num)
  have hctr := randint_mem 10 99 d.ctrIdDraw (by norm_num)
  have hemp := randint_mem 40000 49999 d.employeeIdDraw (by norm_num)
  have hdobeq : (generate_msg uid loc ts d).dob = randint 19600101 20051231 d.dobDraw := rfl
  have hctreq : (generate_msg uid loc ts d).ctrId = randint 10 99 d.ctrIdDraw := rfl
  refine ⟨rfl, rfl, rfl, rfl, rfl, rfl, ?_, ?_, ?_, rfl, ?_, ?_, ?_, ?_, ?_, ?_,
    rfl, hemp.1, hemp.2⟩
  · refine digits_length_eq _ 9 ?_ ?_
    · rw [e9]; omega
    · have h10 : (10 : Nat) ^ (9 + 1) = 10000000000 := by norm_num
      omega
  · rw [e9]; omega
  · rw [e9]; omega
  · refine digits_length_eq _ 7 ?_ ?_
    · rw [e7]; omega
    · have h8 : (10 : Nat) ^ (7 + 1) = 100000000 := by norm_num
      omega
  · rw [hdobeq]
    refine digits_length_eq _ 7 ?_ ?_
    · rw [e7]; omega
    · have h8 : (10 : Nat) ^ (7 + 1) = 100000000 := by norm_num
      omega
  · rw [hdobeq]; exact hdob.1
  · rw [hdobeq]; exact hdob.2
  · rw [hctreq]; exact hctr.1
  · rw [hctreq]; exact hctr.2

end DataGen
